import Mathlib

/-!
Verification development for the ELF address-space model of `pwnlib/elf.py`.

The Python class `ELF` is embedded shallowly:
* decoded program headers and section headers (produced by the external
  `elftools` parser, out of scope here) become plain Lean structures;
* the mmap-backed byte stream becomes a list of bytes plus a cursor, with
  `seek`/`read`/`write` modelled after Python `mmap` semantics (seek out of
  range and write past the end raise `ValueError`, modelled as `Except.error`);
* Python dicts keyed by symbol name become association lists with
  Python-dict assignment semantics (`dictInsert` replaces in place, else
  appends);
* machine integers are `Int`/`Nat` (Python integers are unbounded, so no
  wrap-around is modelled).
-/

/-- One decoded program header (segment), as consumed from the parser. -/
structure SegmentHeader where
  p_offset : Nat
  p_filesz : Nat
  p_vaddr  : Int
  p_memsz  : Nat
  p_flags  : Nat
deriving DecidableEq, Repr

/-- The fields of a decoded section header used by `elf.py`. -/
structure SectionHeader where
  name         : String
  sh_addr      : Int
  sh_addralign : Nat
  sh_info      : Nat
  sh_link      : Nat
deriving DecidableEq, Repr

/-- One decoded symbol-table entry. -/
structure ELFSymbol where
  name     : String
  st_value : Nat
deriving DecidableEq, Repr

/-- One decoded relocation entry (`r_offset`, `r_info_sym`). -/
structure Relocation where
  r_offset   : Nat
  r_info_sym : Nat
deriving DecidableEq, Repr

/-- A decoded section: its header, whether it is a `SymbolTableSection`
(the `isinstance` check in `_populate_symbols`), its symbols (meaningful
for symbol-table sections, used by `get_symbol`) and its relocation
entries (meaningful for relocation sections, used by `iter_relocations`). -/
structure Section where
  header      : SectionHeader
  isSymtab    : Bool
  symbols     : List ELFSymbol
  relocations : List Relocation
deriving DecidableEq, Repr

/-- The mmap-backed stream: byte content plus the current cursor.
Python's `mmap` keeps `0 ≤ pos ≤ size`. -/
structure Mmap where
  data : List Nat
  pos  : Nat
deriving DecidableEq, Repr

/-- `mmap.seek(pos)`: raises `ValueError` when `pos` is outside `[0, size]`. -/
def streamSeek (b : Mmap) (pos : Int) : Except String Mmap :=
  if 0 ≤ pos ∧ pos ≤ (b.data.length : Int) then .ok { b with pos := pos.toNat }
  else .error "ValueError"

/-- `mmap.read(count)`: returns at most `count` bytes from the cursor
(fewer when the buffer ends first) and advances the cursor by the number
of bytes actually returned. -/
def streamRead (b : Mmap) (count : Nat) : List Nat × Mmap :=
  let bytes := (b.data.drop b.pos).take count
  (bytes, { b with pos := b.pos + bytes.length })

/-- `mmap.write(data)`: writes `data` at the cursor and advances it;
raises `ValueError` when the write would run past the end of the buffer. -/
def streamWrite (b : Mmap) (data : List Nat) : Except String Mmap :=
  if b.pos + data.length ≤ b.data.length then
    .ok { data := b.data.take b.pos ++ data ++ b.data.drop (b.pos + data.length),
          pos := b.pos + data.length }
  else .error "ValueError"

/-- Python dict lookup `d[k]` (as `Option`). -/
def dictLookup (d : List (String × Int)) (k : String) : Option Int :=
  (d.find? (fun p => decide (p.1 = k))).map (fun p => p.2)

/-- Python dict assignment `d[k] = v`: replaces the value in place when the
key is present (a Python dict never holds a duplicate key, so replacing the
first occurrence is exact), appends otherwise (insertion order preserved). -/
def dictInsert (k : String) (v : Int) : List (String × Int) → List (String × Int)
  | [] => [(k, v)]
  | p :: t => if p.1 = k then (k, v) :: t else p :: dictInsert k v t

/-- The state of one `ELF` object: decoded structures, the derived maps,
the stored base address `_address`, and the mmap stream. -/
structure ELFState where
  segments : List SegmentHeader
  sections : List Section
  symbols  : List (String × Int)
  plt      : List (String × Int)
  got      : List (String × Int)
  addr     : Int
  stream   : Mmap
deriving DecidableEq, Repr

/-- `ELFFile.get_section_by_name`: first section with the given name, if any. -/
def get_section_by_name (secs : List Section) (nm : String) : Option Section :=
  secs.find? (fun s => decide (s.header.name = nm))

/-- `P_FLAGS.PF_W` (writable segment flag). -/
def PF_W : Nat := 2

/-- `ELF.writable_segments`: segments whose `p_flags` include `PF_W`. -/
def writable_segments (segs : List SegmentHeader) : List SegmentHeader :=
  segs.filter (fun s => decide (s.p_flags &&& PF_W ≠ 0))

/-- `_address = min(filter(bool, (s.header.p_vaddr for s in self.segments)))`:
the minimum of all non-zero segment virtual addresses (`none` when there is
none, where Python `min` raises). -/
def minNonzeroVaddr (segs : List SegmentHeader) : Option Int :=
  match (segs.map (fun s => s.p_vaddr)).filter (fun v => decide (v ≠ 0)) with
  | [] => none
  | v :: vs => some (vs.foldl min v)

/-- Body of the loop in `_populate_got_plt`: resolve the relocation's symbol
through the linked symbol table, then record
`got[name] = r_offset` and `plt[name] = plt.sh_addr + r_info_sym * plt.sh_addralign`.
An out-of-range symbol index raises (`Except.error`). -/
def relocStep (pltSec symSec : Section)
    (maps : List (String × Int) × List (String × Int)) (rel : Relocation) :
    Except String (List (String × Int) × List (String × Int)) :=
  match symSec.symbols.get? rel.r_info_sym with
  | none => .error "IndexError"
  | some sym =>
      .ok (dictInsert sym.name (rel.r_offset : Int) maps.1,
           dictInsert sym.name
             (pltSec.header.sh_addr + (rel.r_info_sym : Int) * (pltSec.header.sh_addralign : Int))
             maps.2)

/-- `ELF._populate_got_plt`, returning `(got, plt)`.
Python raises when the pieces are missing: with no sections at all the
generator is empty (`StopIteration`); with sections but no `.plt` section,
`list.index(None)` raises `ValueError`; with a `.plt` but no relocation
section whose `sh_info` indexes it, `next` raises `StopIteration`; an
out-of-range `sh_link` raises `IndexError`. -/
def populate_got_plt (secs : List Section) :
    Except String (List (String × Int) × List (String × Int)) :=
  match secs with
  | [] => .error "StopIteration"
  | _ =>
    match get_section_by_name secs ".plt" with
    | none => .error "ValueError"
    | some pltSec =>
      match secs.findIdx? (fun s => decide (s = pltSec)) with
      | none => .error "ValueError"
      | some pltIdx =>
        match secs.find? (fun s => decide (s.header.sh_info = pltIdx)) with
        | none => .error "StopIteration"
        | some rel_plt =>
          match secs.get? rel_plt.header.sh_link with
          | none => .error "IndexError"
          | some sym_rel_plt =>
            rel_plt.relocations.foldlM (relocStep pltSec sym_rel_plt) ([], [])

/-- Inner loop of `_populate_symbols`: skip zero-valued symbols, record all
others (`symbols[name] = st_value`). -/
def symStep (m : List (String × Int)) (sym : ELFSymbol) : List (String × Int) :=
  if sym.st_value = 0 then m else dictInsert sym.name (sym.st_value : Int) m

/-- Outer loop of `_populate_symbols`: only `SymbolTableSection`s contribute. -/
def secStep (m : List (String × Int)) (sec : Section) : List (String × Int) :=
  if sec.isSymtab then sec.symbols.foldl symStep m else m

/-- `ELF._populate_symbols`: seed `symbols` with a copy of `plt`, then overlay
every non-zero-valued entry of every symbol-table section, in order. -/
def populate_symbols (plt : List (String × Int)) (secs : List Section) :
    List (String × Int) :=
  secs.foldl secStep plt

/-- `ELF.address` setter: compute `delta = new - _address`, shift every
segment vaddr, every section addr, every symbols/plt/got value, and then
`_address` itself. -/
def setAddress (st : ELFState) (new : Int) : ELFState :=
  let delta := new - st.addr
  { st with
    segments := st.segments.map (fun s => { s with p_vaddr := s.p_vaddr + delta }),
    sections := st.sections.map
      (fun s => { s with header := { s.header with sh_addr := s.header.sh_addr + delta } }),
    symbols := st.symbols.map (fun p => (p.1, p.2 + delta)),
    plt := st.plt.map (fun p => (p.1, p.2 + delta)),
    got := st.got.map (fun p => (p.1, p.2 + delta)),
    addr := st.addr + delta }

/-- `ELF.__init__` after the external parser has decoded the structures:
populate got/plt (raises on a missing `.plt`, see `populate_got_plt`),
then symbols, then `_address` (`min` raises on an empty sequence). The
`_populate_libraries` step only calls the external subprocess collaborator
and touches none of the state modelled here, so it is omitted. -/
def ELF.init (segs : List SegmentHeader) (secs : List Section) (buf : List Nat) :
    Except String ELFState := do
  let gp ← populate_got_plt secs
  let syms := populate_symbols gp.2 secs
  match minNonzeroVaddr segs with
  | none => .error "ValueError"
  | some a =>
      .ok { segments := segs, sections := secs, symbols := syms,
            plt := gp.2, got := gp.1, addr := a, stream := ⟨buf, 0⟩ }

/-- `ELF.vaddr_to_offset`: first segment whose memory range
`[p_vaddr, p_vaddr + p_memsz]` (both ends inclusive) contains `address`,
mapped via `p_offset + (address - p_vaddr)`; `none` otherwise. -/
def vaddr_to_offset (segs : List SegmentHeader) (address : Int) : Option Int :=
  (segs.find? (fun s =>
      decide (s.p_vaddr ≤ address) && decide (address ≤ s.p_vaddr + (s.p_memsz : Int)))).map
    (fun s => (s.p_offset : Int) + (address - s.p_vaddr))

/-- `ELF.offset_to_vaddr`: first segment whose file range
`[p_offset, p_offset + p_filesz]` (both ends inclusive) contains `offset`,
mapped via `p_vaddr + (offset - p_offset)`; `none` otherwise. -/
def offset_to_vaddr (segs : List SegmentHeader) (offset : Int) : Option Int :=
  (segs.find? (fun s =>
      decide ((s.p_offset : Int) ≤ offset) &&
      decide (offset ≤ (s.p_offset : Int) + (s.p_filesz : Int)))).map
    (fun s => s.p_vaddr + (offset - (s.p_offset : Int)))

/-- `ELF.read`: translate the address; when unmapped return `none` with the
stream untouched; otherwise remember the cursor, seek to the offset, read
`count` bytes, and seek back. -/
def ELF.read (st : ELFState) (address : Int) (count : Nat) :
    Except String (Option (List Nat) × Mmap) :=
  match vaddr_to_offset st.segments address with
  | some offset => do
      let old := st.stream.pos
      let s1 ← streamSeek st.stream offset
      let r := streamRead s1 count
      let s3 ← streamSeek r.2 (old : Int)
      .ok (some r.1, s3)
  | none => .ok (none, st.stream)

/-- `ELF.write`: translate the address; when unmapped do nothing; otherwise
remember the cursor, seek to the offset, write the data, and seek back.
Always returns `None` in Python; the stream is the observable result. -/
def ELF.write (st : ELFState) (address : Int) (data : List Nat) :
    Except String Mmap :=
  match vaddr_to_offset st.segments address with
  | some offset => do
      let old := st.stream.pos
      let s1 ← streamSeek st.stream offset
      let s2 ← streamWrite s1 data
      let s3 ← streamSeek s2 (old : Int)
      .ok s3
  | none => .ok st.stream

/-- `Segment.data()` of the external parser: the `p_filesz` bytes starting
at file offset `p_offset`. -/
def segData (buf : List Nat) (s : SegmentHeader) : List Nat :=
  (buf.drop s.p_offset).take s.p_filesz

/-- `bytes.find(pat, start)`: the least index `i ≥ start` (with `i ≤ len`)
at which `pat` occurs as a substring, as `Option` (Python returns `-1`). -/
def strFind (data pat : List Nat) (start : Nat) : Option Nat :=
  ((List.range (data.length + 1)).filter
    (fun i => decide (start ≤ i) && pat.isPrefixOf (data.drop i))).head?

theorem strFind_bounds {data pat : List Nat} {start i : Nat}
    (h : strFind data pat start = some i) :
    start ≤ i ∧ i ≤ data.length ∧ pat.isPrefixOf (data.drop i) = true := by
  unfold strFind at h
  cases hf : (List.range (data.length + 1)).filter
      (fun i => decide (start ≤ i) && pat.isPrefixOf (data.drop i)) with
  | nil => rw [hf] at h; simp at h
  | cons x xs =>
      rw [hf] at h
      simp only [List.head?_cons, Option.some.injEq] at h
      subst h
      have hx : x ∈ (List.range (data.length + 1)).filter
          (fun i => decide (start ≤ i) && pat.isPrefixOf (data.drop i)) := by
        rw [hf]; exact List.mem_cons_self x xs
      have := List.of_mem_filter hx
      have hr := List.mem_range.mp (List.mem_of_mem_filter hx)
      simp only [Bool.and_eq_true, decide_eq_true_eq] at this
      exact ⟨this.1, by omega, this.2⟩

/-- The scanning loop of `ELF.search` over one segment's bytes: repeated
`find` from `offset`, yielding each match position and restarting one byte
later (so overlapping occurrences are produced). -/
def searchLoop (data pat : List Nat) (offset : Nat) : List Nat :=
  match h : strFind data pat offset with
  | none => []
  | some i => i :: searchLoop data pat (i + 1)
termination_by data.length + 1 - offset
decreasing_by
  have hb := strFind_bounds h
  omega

/-- `ELF.search`: scan the writable segments (all segments when
`non_writable` is set) for every occurrence of the pattern, yielding
`p_vaddr + offset` for each match. -/
def ELF.search (st : ELFState) (pat : List Nat) (non_writable : Bool) : List Int :=
  let segs := if non_writable then st.segments else writable_segments st.segments
  segs.flatMap (fun seg =>
    (searchLoop (segData st.stream.data seg) pat 0).map
      (fun i : Nat => seg.p_vaddr + Int.ofNat i))

theorem dictLookup_insert_self (k : String) (v : Int) (d : List (String × Int)) :
    dictLookup (dictInsert k v d) k = some v := by
  induction d with
  | nil => simp [dictInsert, dictLookup]
  | cons p t ih =>
      by_cases hp : p.1 = k
      · simp [dictInsert, hp, dictLookup]
      · simpa [dictInsert, hp, dictLookup, List.find?_cons] using ih

theorem dictLookup_insert_ne (k k' : String) (v : Int) (d : List (String × Int))
    (hne : k' ≠ k) : dictLookup (dictInsert k v d) k' = dictLookup d k' := by
  induction d with
  | nil => simp [dictInsert, dictLookup, List.find?_cons, Ne.symm hne]
  | cons p t ih =>
      by_cases hp : p.1 = k
      · simp [dictInsert, hp, dictLookup, List.find?_cons, Ne.symm hne]
      · by_cases hpk : p.1 = k'
        · simp only [dictInsert, if_neg hp]
          simp [dictLookup, List.find?_cons, hpk]
        · simpa [dictInsert, hp, dictLookup, List.find?_cons, hpk] using ih

/-- Sections of a statically linked binary: a symbol table, but no `.plt`
and no relocation section. -/
def staticSecs : List Section :=
  [⟨⟨".symtab", 0, 4, 7, 0⟩, true, [⟨"main", 0x400500⟩], []⟩]

/-- C1: on an ELF image with no `.plt` section (e.g. a statically linked
binary), `_populate_got_plt` — and hence construction of the model — does
NOT return empty `plt`/`got` maps: `self.sections.index(None)` raises
`ValueError`; with a `.plt` but no relocation section whose `sh_info`
indexes it, `next` raises `StopIteration`. Either way `__init__`
propagates an exception instead of producing a model. -/
theorem populate_got_plt_raises_without_plt :
    populate_got_plt staticSecs = .error "ValueError" ∧
    ELF.init [⟨0, 0x100, 0x400000, 0x100, 5⟩] staticSecs [] = .error "ValueError" ∧
    populate_got_plt [⟨⟨".plt", 0x100, 0x10, 7, 0⟩, false, [], []⟩] =
      .error "StopIteration" ∧
    ELF.init [⟨0, 0x100, 0x400000, 0x100, 5⟩]
      [⟨⟨".plt", 0x100, 0x10, 7, 0⟩, false, [], []⟩] [] = .error "StopIteration" :=
  ⟨rfl, rfl, rfl, rfl⟩

/-- C5: rebasing composes — setting the base address to `b1` and then to
`b2` yields exactly the symbols map obtained by setting it directly to
`b2`; one call shifts every symbol value by `new - prior` base; and the
getter returns the new base after one call and after two. -/
theorem setAddress_compose (st : ELFState) (b1 b2 : Int) :
    (setAddress (setAddress st b1) b2).symbols = (setAddress st b2).symbols ∧
    (setAddress st b1).symbols = st.symbols.map (fun p => (p.1, p.2 + (b1 - st.addr))) ∧
    (setAddress st b1).addr = b1 ∧
    (setAddress (setAddress st b1) b2).addr = b2 := by
  refine ⟨?_, rfl, by simp [setAddress], by simp [setAddress]⟩
  simp only [setAddress, List.map_map]
  apply List.map_congr_left
  intro p _
  simp only [Function.comp_apply, Prod.mk.injEq]
  exact ⟨trivial, by ring⟩

/-- C10: writing at a virtual address contained in no segment's memory
range is a silent no-op: no exception, buffer and cursor unchanged. -/
theorem write_unmapped_noop (st : ELFState) (address : Int) (data : List Nat)
    (h : ∀ seg ∈ st.segments,
      ¬(seg.p_vaddr ≤ address ∧ address ≤ seg.p_vaddr + (seg.p_memsz : Int))) :
    ELF.write st address data = .ok st.stream := by
  have hfind : st.segments.find? (fun s =>
      decide (s.p_vaddr ≤ address) && decide (address ≤ s.p_vaddr + (s.p_memsz : Int))) = none := by
    apply List.find?_eq_none.mpr
    intro s hs
    have hns := h s hs
    simp only [Bool.and_eq_true, decide_eq_true_eq]
    tauto
  unfold ELF.write vaddr_to_offset
  rw [hfind]
  rfl

theorem write_unmapped_noop_witness :
    ELF.write ⟨[⟨0, 4, 0x1000, 8, 0⟩], [], [], [], [], 0x1000, ⟨[1, 2, 3, 4], 0⟩⟩
      0x2000 [9] = .ok ⟨[1, 2, 3, 4], 0⟩ :=
  write_unmapped_noop _ 0x2000 [9] (by decide)

/-- A single segment whose memory image (`p_memsz = 8`) is larger than its
file image (`p_filesz = 4`), i.e. it has a BSS tail. -/
def bssSegs : List SegmentHeader := [⟨0, 4, 0x1000, 8, 0⟩]

/-- C3 fails as stated: `0x1006` lies inside the segment's memory range
`[0x1000, 0x1008]`, but its translated offset `6` lies outside the file
range `[0, 4]`, so the round trip returns `none`, not the address. -/
theorem roundtrip_fails_on_bss_address :
    (bssSegs.any (fun s =>
      decide (s.p_vaddr ≤ (0x1006 : Int)) &&
      decide ((0x1006 : Int) ≤ s.p_vaddr + (s.p_memsz : Int))) = true) ∧
    (vaddr_to_offset bssSegs 0x1006).bind (offset_to_vaddr bssSegs) ≠ some 0x1006 := by
  decide

/-- C3, amended: the round trip `offset_to_vaddr ∘ vaddr_to_offset` returns
the address again whenever the first segment whose memory range contains
the address is also the first segment whose file range contains the
translated offset (in particular the address must fall in the file-backed
part of the segment, not its BSS tail). -/
theorem vaddr_offset_roundtrip (segs : List SegmentHeader) (a : Int) (seg : SegmentHeader)
    (h1 : segs.find? (fun s =>
        decide (s.p_vaddr ≤ a) && decide (a ≤ s.p_vaddr + (s.p_memsz : Int))) = some seg)
    (h2 : segs.find? (fun s =>
        decide ((s.p_offset : Int) ≤ (seg.p_offset : Int) + (a - seg.p_vaddr)) &&
        decide ((seg.p_offset : Int) + (a - seg.p_vaddr) ≤ (s.p_offset : Int) + (s.p_filesz : Int)))
        = some seg) :
    (vaddr_to_offset segs a).bind (offset_to_vaddr segs) = some a := by
  unfold vaddr_to_offset offset_to_vaddr
  rw [h1]
  simp only [Option.map_some', Option.some_bind]
  rw [h2]
  simp only [Option.map_some', Option.some.injEq]
  ring

theorem vaddr_offset_roundtrip_witness :
    (vaddr_to_offset bssSegs 0x1002).bind (offset_to_vaddr bssSegs) = some 0x1002 :=
  vaddr_offset_roundtrip bssSegs 0x1002 ⟨0, 4, 0x1000, 8, 0⟩ (by decide) (by decide)

/-- Sections exercising `_populate_got_plt`: a `.plt` section at index 0
(base `0x100`, stride `0x10`), a relocation section whose `sh_info` is 0
and whose single entry (relocation-table index 0) references symbol
index 5, and the linked symbol table at index 2. -/
def c4secs : List Section :=
  [⟨⟨".plt", 0x100, 0x10, 7, 0⟩, false, [], []⟩,
   ⟨⟨".rel.plt", 0, 4, 0, 2⟩, false, [], [⟨0x2000, 5⟩]⟩,
   ⟨⟨".symtab", 0, 4, 7, 0⟩, true,
     [⟨"a", 0⟩, ⟨"b", 0⟩, ⟨"c", 0⟩, ⟨"d", 0⟩, ⟨"e", 0⟩, ⟨"foo", 0⟩], []⟩]

/-- C4 fails as stated: the single relocation entry sits at index 0 of the
relocation table, so the claim predicts `plt["foo"] = 0x100 + 0 * 0x10 =
0x100`; the code instead uses the entry's symbol index `r_info_sym = 5`
and records `0x100 + 5 * 0x10 = 0x150`. -/
theorem plt_address_ignores_relocation_index :
    populate_got_plt c4secs = .ok ([("foo", 0x2000)], [("foo", 0x150)]) ∧
    (0x150 : Int) ≠ 0x100 + 0 * 0x10 := ⟨rfl, by decide⟩

/-- C4, amended: for every relocation entry processed, the recorded GOT
address for the resolved symbol name is the entry's `r_offset`, and the
recorded PLT address is the `.plt` section's base address plus the entry's
symbol-table index (`r_info_sym`, not its position in the relocation
table) times the section's address alignment. -/
theorem relocStep_records (pltSec symSec : Section)
    (maps : List (String × Int) × List (String × Int)) (rel : Relocation)
    (sym : ELFSymbol) (g p : List (String × Int))
    (hsym : symSec.symbols.get? rel.r_info_sym = some sym)
    (hstep : relocStep pltSec symSec maps rel = .ok (g, p)) :
    dictLookup g sym.name = some (rel.r_offset : Int) ∧
    dictLookup p sym.name =
      some (pltSec.header.sh_addr +
        (rel.r_info_sym : Int) * (pltSec.header.sh_addralign : Int)) := by
  unfold relocStep at hstep
  rw [hsym] at hstep
  simp only [Except.ok.injEq, Prod.mk.injEq] at hstep
  obtain ⟨hg, hp⟩ := hstep
  subst hg
  subst hp
  exact ⟨dictLookup_insert_self _ _ _, dictLookup_insert_self _ _ _⟩

theorem relocStep_records_witness :
    dictLookup [("foo", 0x2000)] "foo" = some (0x2000 : Int) ∧
    dictLookup [("foo", 0x150)] "foo" = some ((0x100 : Int) + (5 : Int) * (0x10 : Int)) := by
  have h := relocStep_records ⟨⟨".plt", 0x100, 0x10, 7, 0⟩, false, [], []⟩
    ⟨⟨".symtab", 0, 4, 7, 0⟩, true,
      [⟨"a", 0⟩, ⟨"b", 0⟩, ⟨"c", 0⟩, ⟨"d", 0⟩, ⟨"e", 0⟩, ⟨"foo", 0⟩], []⟩
    ([], []) ⟨0x2000, 5⟩ ⟨"foo", 0⟩ [("foo", 0x2000)] [("foo", 0x150)] (by decide) rfl
  exact h

theorem foldl_min_add (d : Int) (vs : List Int) : ∀ v : Int,
    (vs.map (fun x => x + d)).foldl min (v + d) = vs.foldl min v + d := by
  induction vs with
  | nil => intro v; rfl
  | cons x xs ih =>
      intro v
      simp only [List.map_cons, List.foldl_cons]
      rw [min_add_add_right, ih]

/-- C2, amended: the stored base address equals the minimum of the
non-zero segment virtual addresses right after loading, and this is
preserved by the base-address setter provided no segment's virtual
address is zero before the call and none becomes zero through the shift
(a segment with `p_vaddr = 0`, such as a GNU_STACK header, breaks it:
after the shift its address is non-zero and enters the minimum). -/
theorem base_address_invariant :
    (∀ (segs : List SegmentHeader) (secs : List Section) (buf : List Nat) (st : ELFState),
      ELF.init segs secs buf = .ok st → minNonzeroVaddr st.segments = some st.addr) ∧
    (∀ (st : ELFState) (b : Int),
      minNonzeroVaddr st.segments = some st.addr →
      (∀ s ∈ st.segments, s.p_vaddr ≠ 0) →
      (∀ s ∈ st.segments, s.p_vaddr + (b - st.addr) ≠ 0) →
      minNonzeroVaddr (setAddress st b).segments = some (setAddress st b).addr ∧
        (setAddress st b).addr = b) := by
  constructor
  · intro segs secs buf st hinit
    unfold ELF.init at hinit
    cases hgp : populate_got_plt secs with
    | error e => rw [hgp] at hinit; simp [Bind.bind, Except.bind] at hinit
    | ok gp =>
        rw [hgp] at hinit
        simp only [Bind.bind, Except.bind] at hinit
        cases hm : minNonzeroVaddr segs with
        | none => rw [hm] at hinit; simp at hinit
        | some a =>
            rw [hm] at hinit
            simp only [Except.ok.injEq] at hinit
            subst hinit
            simpa using hm
  · intro st b h0 h1 h2
    have haddr : (setAddress st b).addr = b := by simp [setAddress]
    refine ⟨?_, haddr⟩
    have hsegs : (setAddress st b).segments.map (fun s => s.p_vaddr) =
        (st.segments.map (fun s => s.p_vaddr)).map (fun v => v + (b - st.addr)) := by
      simp [setAddress, List.map_map]
    unfold minNonzeroVaddr at h0 ⊢
    rw [hsegs, haddr]
    have hfilter_old : (st.segments.map (fun s => s.p_vaddr)).filter (fun v => decide (v ≠ 0))
        = st.segments.map (fun s => s.p_vaddr) := by
      apply List.filter_eq_self.mpr
      intro v hv
      obtain ⟨s, hs, rfl⟩ := List.mem_map.mp hv
      simpa using h1 s hs
    have hfilter_new :
        ((st.segments.map (fun s => s.p_vaddr)).map (fun v => v + (b - st.addr))).filter
          (fun v => decide (v ≠ 0))
        = (st.segments.map (fun s => s.p_vaddr)).map (fun v => v + (b - st.addr)) := by
      apply List.filter_eq_self.mpr
      intro v hv
      rw [List.map_map] at hv
      obtain ⟨s, hs, rfl⟩ := List.mem_map.mp hv
      simpa using h2 s hs
    rw [hfilter_old] at h0
    rw [hfilter_new]
    cases hl : st.segments.map (fun s => s.p_vaddr) with
    | nil => rw [hl] at h0; simp at h0
    | cons v vs =>
        rw [hl] at h0
        simp only [Option.some.injEq] at h0
        simp only [List.map_cons, foldl_min_add, Option.some.injEq]
        omega

/-- Program headers with one ordinary loadable segment at `0x400000` and
one zero-vaddr segment (as a GNU_STACK program header has). -/
def gsSegs : List SegmentHeader := [⟨0, 0x100, 0x400000, 0x100, 5⟩, ⟨0, 0, 0, 0, 6⟩]

/-- Minimal sections on which `_populate_got_plt` succeeds with empty maps:
a `.plt` at index 0 and a relocation section with `sh_info = 0` and no
entries. -/
def okSecs : List Section :=
  [⟨⟨".plt", 0x100, 0x10, 7, 0⟩, false, [], []⟩,
   ⟨⟨".rel.plt", 0, 4, 0, 0⟩, false, [], []⟩]

/-- The model state `ELF.init gsSegs okSecs []` produces. -/
def gsSt : ELFState := ⟨gsSegs, okSecs, [], [], [], 0x400000, ⟨[], 0⟩⟩

/-- C2 fails as stated: after loading an image with segment vaddrs
`{0x400000, 0}` the invariant holds, but one `setAddress 0x500000` call
shifts the zero-vaddr segment to `0x100000`, which is now the minimum of
the non-zero vaddrs, while the stored base address is `0x500000`. -/
theorem base_address_invariant_fails_after_rebase :
    ELF.init gsSegs okSecs [] = .ok gsSt ∧
    minNonzeroVaddr (setAddress gsSt 0x500000).segments = some 0x100000 ∧
    (setAddress gsSt 0x500000).addr = 0x500000 ∧
    (0x100000 : Int) ≠ 0x500000 := ⟨rfl, by decide, by decide, by decide⟩

/-- Program headers with no zero-vaddr segment. -/
def okSegs : List SegmentHeader := [⟨0, 0x100, 0x400000, 0x100, 5⟩]

/-- The model state `ELF.init okSegs okSecs []` produces. -/
def okSt : ELFState := ⟨okSegs, okSecs, [], [], [], 0x400000, ⟨[], 0⟩⟩

theorem base_address_invariant_witness :
    minNonzeroVaddr okSt.segments = some okSt.addr ∧
    (minNonzeroVaddr (setAddress okSt 0x500000).segments =
        some (setAddress okSt 0x500000).addr ∧
      (setAddress okSt 0x500000).addr = 0x500000) :=
  ⟨base_address_invariant.1 okSegs okSecs [] okSt rfl,
   base_address_invariant.2 okSt 0x500000
     (base_address_invariant.1 okSegs okSecs [] okSt rfl) (by decide) (by decide)⟩

theorem vaddr_to_offset_nonneg {segs : List SegmentHeader} {a off : Int}
    (h : vaddr_to_offset segs a = some off) : 0 ≤ off := by
  unfold vaddr_to_offset at h
  cases hf : segs.find? (fun s =>
      decide (s.p_vaddr ≤ a) && decide (a ≤ s.p_vaddr + (s.p_memsz : Int))) with
  | none => rw [hf] at h; simp at h
  | some s =>
      rw [hf] at h
      simp only [Option.map_some', Option.some.injEq] at h
      have hs := List.find?_some hf
      simp only [Bool.and_eq_true, decide_eq_true_eq] at hs
      omega

theorem read_mapped (st : ELFState) (a : Int) (count : Nat) (off : Int)
    (hmap : vaddr_to_offset st.segments a = some off)
    (hpos : st.stream.pos ≤ st.stream.data.length)
    (hoffle : off.toNat ≤ st.stream.data.length) :
    ELF.read st a count =
      .ok (some ((st.stream.data.drop off.toNat).take count), st.stream) := by
  have h0 : 0 ≤ off := vaddr_to_offset_nonneg hmap
  have hofn : (off.toNat : Int) = off := Int.toNat_of_nonneg h0
  have hseek1 : streamSeek st.stream off = .ok ⟨st.stream.data, off.toNat⟩ := by
    unfold streamSeek
    rw [if_pos ⟨h0, by omega⟩]
  unfold ELF.read
  rw [hmap]
  simp only [Bind.bind, Except.bind, hseek1]
  unfold streamRead
  simp only
  have hseek2 : streamSeek
      ⟨st.stream.data, off.toNat + ((st.stream.data.drop off.toNat).take count).length⟩
      (st.stream.pos : Int) = .ok ⟨st.stream.data, st.stream.pos⟩ := by
    unfold streamSeek
    rw [if_pos ⟨Int.natCast_nonneg _, by exact_mod_cast hpos⟩]
    simp [Int.toNat_natCast]
  rw [hseek2]

/-- C7, amended: when the address is mapped, `read` returns the bytes of
the buffer starting at the translated offset and leaves the cursor where it
was; the result has exactly `count` bytes provided the translated offset
plus `count` does not run past the end of the buffer (otherwise Python's
`mmap.read` returns only what remains). When the address is unmapped,
`read` returns the `None` sentinel and touches nothing. -/
theorem read_semantics (st : ELFState) (a : Int) (count : Nat) :
    (∀ off : Int, vaddr_to_offset st.segments a = some off →
      st.stream.pos ≤ st.stream.data.length →
      off.toNat + count ≤ st.stream.data.length →
      ELF.read st a count =
        .ok (some ((st.stream.data.drop off.toNat).take count), st.stream) ∧
      ((st.stream.data.drop off.toNat).take count).length = count) ∧
    (vaddr_to_offset st.segments a = none →
      ELF.read st a count = .ok (none, st.stream)) := by
  constructor
  · intro off hmap hpos hlen
    have hlenbytes : ((st.stream.data.drop off.toNat).take count).length = count := by
      simp only [List.length_take, List.length_drop]
      omega
    exact ⟨read_mapped st a count off hmap hpos (by omega), hlenbytes⟩
  · intro hmap
    unfold ELF.read
    rw [hmap]

/-- A loaded model over a 4-byte buffer whose only segment maps
`[0x1000, 0x1008]` onto file range `[0, 4]`. -/
def bssSt : ELFState := ⟨[⟨0, 4, 0x1000, 8, 0⟩], [], [], [], [], 0x1000, ⟨[1, 2, 3, 4], 0⟩⟩

/-- C7 fails as stated: `0x1000` is mapped (offset 0), but
`read(0x1000, 10)` returns only the 4 bytes the buffer holds, not the 10
requested. -/
theorem read_returns_short_at_buffer_end :
    vaddr_to_offset bssSt.segments 0x1000 = some 0 ∧
    ELF.read bssSt 0x1000 10 = .ok (some [1, 2, 3, 4], bssSt.stream) ∧
    ([1, 2, 3, 4] : List Nat).length ≠ 10 := ⟨rfl, rfl, by decide⟩

theorem read_semantics_witness :
    (ELF.read bssSt 0x1001 2 = .ok (some [2, 3], bssSt.stream) ∧
      ([2, 3] : List Nat).length = 2) ∧
    ELF.read bssSt 0x2000 2 = .ok (none, bssSt.stream) :=
  ⟨(read_semantics bssSt 0x1001 2).1 1 (by decide) (by decide) (by decide),
   (read_semantics bssSt 0x2000 2).2 (by decide)⟩

/-- The buffer contents after writing `data` at offset `off`. -/
def spliceAt (buf : List Nat) (off : Nat) (data : List Nat) : List Nat :=
  buf.take off ++ data ++ buf.drop (off + data.length)

/-- C8: on a mapped, writable address whose translated offset keeps the
data inside the buffer, `write(addr, data)` patches the buffer in place
(restoring the cursor) and a subsequent `read(addr, len(data))` returns
exactly `data`. -/
theorem write_then_read (st : ELFState) (a : Int) (data : List Nat) (off : Int)
    (hw : (writable_segments st.segments).any (fun s =>
        decide (s.p_vaddr ≤ a) && decide (a ≤ s.p_vaddr + (s.p_memsz : Int))) = true)
    (hmap : vaddr_to_offset st.segments a = some off)
    (hlen : off.toNat + data.length ≤ st.stream.data.length)
    (hpos : st.stream.pos ≤ st.stream.data.length) :
    ELF.write st a data =
      .ok ⟨spliceAt st.stream.data off.toNat data, st.stream.pos⟩ ∧
    ELF.read { st with stream := ⟨spliceAt st.stream.data off.toNat data, st.stream.pos⟩ }
        a data.length =
      .ok (some data, ⟨spliceAt st.stream.data off.toNat data, st.stream.pos⟩) := by
  have h0 : 0 ≤ off := vaddr_to_offset_nonneg hmap
  have hofn : (off.toNat : Int) = off := Int.toNat_of_nonneg h0
  have htklen : (st.stream.data.take off.toNat).length = off.toNat := by
    simp only [List.length_take]
    omega
  have hsplen : (spliceAt st.stream.data off.toNat data).length = st.stream.data.length := by
    simp only [spliceAt, List.length_append, List.length_take, List.length_drop]
    omega
  constructor
  · unfold ELF.write
    rw [hmap]
    have hseek1 : streamSeek st.stream off = .ok ⟨st.stream.data, off.toNat⟩ := by
      unfold streamSeek
      rw [if_pos ⟨h0, by omega⟩]
    simp only [Bind.bind, Except.bind, hseek1]
    have hwrite : streamWrite ⟨st.stream.data, off.toNat⟩ data =
        .ok ⟨spliceAt st.stream.data off.toNat data, off.toNat + data.length⟩ := by
      unfold streamWrite spliceAt
      rw [if_pos hlen]
    rw [hwrite]
    simp only [Except.bind]
    have hseek2 : streamSeek ⟨spliceAt st.stream.data off.toNat data,
        off.toNat + data.length⟩ (st.stream.pos : Int) =
        .ok ⟨spliceAt st.stream.data off.toNat data, st.stream.pos⟩ := by
      unfold streamSeek
      rw [if_pos ⟨Int.natCast_nonneg _, by rw [hsplen]; exact_mod_cast hpos⟩]
      simp [Int.toNat_natCast]
    rw [hseek2]
  · have hbytes : ((spliceAt st.stream.data off.toNat data).drop off.toNat).take data.length
        = data := by
      unfold spliceAt
      rw [List.append_assoc, List.drop_left' htklen, List.take_left' rfl]
    have hread := read_mapped
      { st with stream := ⟨spliceAt st.stream.data off.toNat data, st.stream.pos⟩ }
      a data.length off hmap (by simpa [hsplen] using hpos) (by simp [hsplen]; omega)
    rw [hbytes] at hread
    exact hread

/-- A loaded model with one writable segment (`p_flags = 6`, rw). -/
def wrSt : ELFState := ⟨[⟨0, 4, 0x1000, 8, 6⟩], [], [], [], [], 0x1000, ⟨[1, 2, 3, 4], 0⟩⟩

theorem write_then_read_witness :
    ELF.write wrSt 0x1001 [9, 9] =
      .ok ⟨spliceAt wrSt.stream.data 1 [9, 9], wrSt.stream.pos⟩ ∧
    ELF.read { wrSt with stream := ⟨spliceAt wrSt.stream.data 1 [9, 9], wrSt.stream.pos⟩ }
        0x1001 2 =
      .ok (some [9, 9], ⟨spliceAt wrSt.stream.data 1 [9, 9], wrSt.stream.pos⟩) :=
  write_then_read wrSt 0x1001 [9, 9] 1 (by decide) (by decide) (by decide) (by decide)

/-- `lastOr o acc` is `o` unless it is `none`, in which case `acc`:
the shape of a fold that keeps the last written value. -/
def lastOr (o acc : Option Nat) : Option Nat :=
  match o with
  | some v => some v
  | none => acc

theorem foldl_lastwrite {α : Type} (step : Option Nat → α → Option Nat)
    (hstep : ∀ (a : Option Nat) (x : α), step a x = lastOr (step none x) a) :
    ∀ (l : List α) (acc : Option Nat),
      l.foldl step acc = lastOr (l.foldl step none) acc := by
  intro l
  induction l with
  | nil => intro acc; rfl
  | cons x t ih =>
      intro acc
      simp only [List.foldl_cons]
      rw [ih (step acc x), ih (step none x)]
      cases hft : t.foldl step none with
      | some v => rfl
      | none => simpa [lastOr] using hstep acc x

/-- Specification-side reading of the inner loop of `_populate_symbols`:
the value of the last symbol named `name` with a non-zero `st_value`. -/
def lastNonzero (name : String) (acc : Option Nat) (syms : List ELFSymbol) : Option Nat :=
  syms.foldl
    (fun a sym => if sym.name = name ∧ sym.st_value ≠ 0 then some sym.st_value else a) acc

/-- Specification-side reading of `_populate_symbols`: the last non-zero
value recorded for `name` across all symbol-table sections, in parse order. -/
def lastSymtabValue (secs : List Section) (name : String) : Option Nat :=
  secs.foldl
    (fun acc sec => if sec.isSymtab then lastNonzero name acc sec.symbols else acc) none

theorem lastNonzero_acc (name : String) (syms : List ELFSymbol) (acc : Option Nat) :
    lastNonzero name acc syms = lastOr (lastNonzero name none syms) acc := by
  apply foldl_lastwrite
  intro a x
  by_cases hc : x.name = name ∧ x.st_value ≠ 0 <;> simp [hc, lastOr]

theorem lookup_symfold (name : String) : ∀ (syms : List ELFSymbol) (m : List (String × Int)),
    dictLookup (syms.foldl symStep m) name =
      match lastNonzero name none syms with
      | some v => some (v : Int)
      | none => dictLookup m name := by
  intro syms
  induction syms with
  | nil => intro m; rfl
  | cons sym t ih =>
      intro m
      have hcons : lastNonzero name none (sym :: t) =
          lastOr (lastNonzero name none t)
            (if sym.name = name ∧ sym.st_value ≠ 0 then some sym.st_value else none) := by
        unfold lastNonzero
        simp only [List.foldl_cons]
        exact lastNonzero_acc name t _
      simp only [List.foldl_cons]
      rw [ih (symStep m sym), hcons]
      cases hlt : lastNonzero name none t with
      | some v => rfl
      | none =>
          simp only [lastOr]
          by_cases hc : sym.name = name ∧ sym.st_value ≠ 0
          · rw [if_pos hc]
            unfold symStep
            rw [if_neg hc.2, ← hc.1]
            exact dictLookup_insert_self _ _ _
          · rw [if_neg hc]
            unfold symStep
            by_cases hz : sym.st_value = 0
            · rw [if_pos hz]
            · rw [if_neg hz]
              have hname : name ≠ sym.name := by
                intro he
                exact hc ⟨he.symm, hz⟩
              exact dictLookup_insert_ne _ _ _ _ hname

theorem lookup_secfold (name : String) : ∀ (secs : List Section) (m : List (String × Int)),
    dictLookup (secs.foldl secStep m) name =
      match lastSymtabValue secs name with
      | some v => some (v : Int)
      | none => dictLookup m name := by
  intro secs
  have hstep : ∀ (a : Option Nat) (x : Section),
      (if x.isSymtab then lastNonzero name a x.symbols else a) =
        lastOr (if x.isSymtab then lastNonzero name none x.symbols else none) a := by
    intro a x
    by_cases hx : x.isSymtab
    · rw [if_pos hx, if_pos hx]
      exact lastNonzero_acc name x.symbols a
    · rw [if_neg hx, if_neg hx]
      rfl
  induction secs with
  | nil => intro m; rfl
  | cons sec t ih =>
      intro m
      have hcons : lastSymtabValue (sec :: t) name =
          lastOr (lastSymtabValue t name)
            (if sec.isSymtab then lastNonzero name none sec.symbols else none) := by
        unfold lastSymtabValue
        simp only [List.foldl_cons]
        rw [foldl_lastwrite _ hstep t _]
      simp only [List.foldl_cons]
      rw [ih (secStep m sec), hcons]
      cases hlt : lastSymtabValue t name with
      | some v => rfl
      | none =>
          simp only [lastOr]
          by_cases hx : sec.isSymtab
          · rw [if_pos hx]
            unfold secStep
            rw [if_pos hx]
            exact lookup_symfold name sec.symbols m
          · rw [if_neg hx]
            unfold secStep
            rw [if_neg hx]

/-- C6: the symbols map is the PLT map overlaid, in parse order, with every
non-zero-valued symbol-table entry: looking up a name yields the value of
the last non-zero symbol-table entry with that name when one exists
(later entries overwrite earlier ones and PLT seeds), and otherwise falls
back to the PLT seed (zero-valued entries are skipped and never shadow). -/
theorem symbols_overlay (plt : List (String × Int)) (secs : List Section) (name : String) :
    dictLookup (populate_symbols plt secs) name =
      match lastSymtabValue secs name with
      | some v => some (v : Int)
      | none => dictLookup plt name :=
  lookup_secfold name secs plt

/-- Specification-side reading of the scan: every index at which the
pattern occurs in the data (overlapping occurrences included), in
ascending order. -/
def occurrences (data pat : List Nat) : List Nat :=
  (List.range (data.length + 1)).filter (fun i => pat.isPrefixOf (data.drop i))

theorem strFind_eq_head (data pat : List Nat) (start : Nat) :
    strFind data pat start =
      ((occurrences data pat).filter (fun i => decide (start ≤ i))).head? := by
  unfold strFind occurrences
  rw [List.filter_filter]

theorem head?_mem_of_eq {α : Type} {l : List α} {a : α} (h : l.head? = some a) : a ∈ l := by
  cases l with
  | nil => simp at h
  | cons x xs =>
      simp only [List.head?_cons, Option.some.injEq] at h
      exact h ▸ List.mem_cons_self x xs

theorem sorted_filter_tail {l : List Nat} (hs : l.Pairwise (fun a b => a < b)) :
    ∀ {start i : Nat}, (l.filter (fun j => decide (start ≤ j))).head? = some i →
      (l.filter (fun j => decide (start ≤ j))).tail =
        l.filter (fun j => decide (i + 1 ≤ j)) := by
  induction hs with
  | nil => intro start i h; simp at h
  | @cons a t ha hp ih =>
      intro start i h
      by_cases hsa : start ≤ a
      · have hfc : (a :: t).filter (fun j => decide (start ≤ j)) =
            a :: t.filter (fun j => decide (start ≤ j)) := by
          simp [List.filter_cons, hsa]
        rw [hfc] at h
        simp only [List.head?_cons, Option.some.injEq] at h
        subst h
        rw [hfc]
        simp only [List.tail_cons]
        have hall1 : t.filter (fun j => decide (start ≤ j)) = t := by
          apply List.filter_eq_self.mpr
          intro x hx
          have := ha x hx
          simp only [decide_eq_true_eq]
          omega
        have hall2 : t.filter (fun j => decide (a + 1 ≤ j)) = t := by
          apply List.filter_eq_self.mpr
          intro x hx
          have := ha x hx
          simp only [decide_eq_true_eq]
          omega
        rw [hall1, List.filter_cons]
        simp [show ¬(a + 1 ≤ a) by omega, hall2]
      · have hfc : (a :: t).filter (fun j => decide (start ≤ j)) =
            t.filter (fun j => decide (start ≤ j)) := by
          simp [List.filter_cons, hsa]
        rw [hfc] at h ⊢
        rw [ih h]
        have hi_t : i ∈ t := List.mem_of_mem_filter (head?_mem_of_eq h)
        have hai : a < i := ha i hi_t
        rw [List.filter_cons]
        simp [show ¬(i + 1 ≤ a) by omega]

theorem occurrences_sorted (data pat : List Nat) :
    (occurrences data pat).Pairwise (fun a b => a < b) :=
  (List.pairwise_lt_range _).filter _

theorem searchLoop_eq (data pat : List Nat) (offset : Nat) :
    searchLoop data pat offset =
      (occurrences data pat).filter (fun i => decide (offset ≤ i)) := by
  have H : ∀ (n off : Nat), data.length + 1 - off ≤ n →
      searchLoop data pat off =
        (occurrences data pat).filter (fun i => decide (off ≤ i)) := by
    intro n
    induction n with
    | zero =>
        intro off hle
        rw [searchLoop]
        cases hsf : strFind data pat off with
        | none =>
            simp only
            rw [strFind_eq_head] at hsf
            exact (List.head?_eq_none_iff.mp hsf).symm
        | some i =>
            have hb := strFind_bounds hsf
            omega
    | succ n ih =>
        intro off hle
        rw [searchLoop]
        cases hsf : strFind data pat off with
        | none =>
            simp only
            rw [strFind_eq_head] at hsf
            exact (List.head?_eq_none_iff.mp hsf).symm
        | some i =>
            simp only
            have hb := strFind_bounds hsf
            rw [ih (i + 1) (by omega)]
            rw [strFind_eq_head] at hsf
            have htail := sorted_filter_tail (occurrences_sorted data pat) hsf
            rw [← htail]
            exact List.cons_head?_tail hsf
  exact H (data.length + 1 - offset) offset le_rfl

/-- C9: `search` scans exactly the writable segments when `non_writable`
is false and all segments when it is true, and yields, segment by segment
in catalog order and by ascending offset within each segment, the virtual
address `p_vaddr + i` of every (possibly overlapping) index `i` at which
the pattern occurs in the segment's file-backed bytes. The embedding is a
pure function of the state, so no model state is mutated. -/
theorem search_yields_all_occurrences (st : ELFState) (pat : List Nat) (non_writable : Bool) :
    ELF.search st pat non_writable =
      (if non_writable then st.segments else writable_segments st.segments).flatMap
        (fun seg => (occurrences (segData st.stream.data seg) pat).map
          (fun i : Nat => seg.p_vaddr + Int.ofNat i)) := by
  unfold ELF.search
  dsimp only
  congr 1
  funext seg
  rw [searchLoop_eq]
  congr 1
  apply List.filter_eq_self.mpr
  intro a _
  simp
